import Mathlib

/-!
Verification of the ComDaAn analytics engine (`src/comdaan.py`).

Shallow-embedding conventions used throughout this development:

* Actor names and item names (file paths, message ids) are Python strings
  compared lexicographically; we model them as natural numbers, which is
  faithful up to an order isomorphism (any finite set of strings embeds
  order-preservingly into `ℕ`).  The empty string `""` is the least string
  and is modelled by `0`; this matters only for the `not name` falsiness
  test in `centrality`.
* Timestamps (`datetime` values) are modelled as integers counting minutes
  since the Unix epoch 1970-01-01 00:00 (a Thursday).  Day indices count
  days since the epoch, so Sunday is every day `≡ 3 [ZMOD 7]` and Monday
  every day `≡ 4 [ZMOD 7]`.  `datetime(x.year, x.month, x.day)` truncation
  is division by 1440; sub-minute precision plays no role in any claim.
* pandas dataframes are lists of records; `groupby` with its default
  `sort=True` enumerates the distinct keys in ascending order.
* In-place column assignments (`dataframe[col] = ...`) are modelled by
  explicit state passing: for each operation we define both its return
  value and an `...Effect` function giving the contents of the caller's
  table after the call.
* Python's `list(set(xs))` enumerates the distinct elements of `xs` in a
  hash-table order that is not specified by the language (and varies with
  `PYTHONHASHSEED`); we model it as a parameter `setList` constrained only
  by the guarantee that it returns each distinct element exactly once.
* Fallible paths (the `explode`-based commenter branch crashes on an issue
  with an empty discussion list, and a role string selecting no role makes
  the groupby raise) are modelled with `Option`.
-/

namespace ComDaAn

/-! ## Time model -/

/-- Minutes per day; timestamps are minutes since the Unix epoch. -/
def minutesPerDay : ℤ := 1440

/-- Day index of a timestamp (floor division, as `datetime.date` would give). -/
def dayOf (t : ℤ) : ℤ := Int.fdiv t minutesPerDay

/-- Midnight of the day of `t`: models `datetime(x.year, x.month, x.day)`. -/
def dayStartMin (t : ℤ) : ℤ := dayOf t * minutesPerDay

/-- The Sunday on or after day `d`: the right (label) edge of the pandas
`resample("W")` bucket containing `d` (right-closed, right-labelled,
`W-SUN`).  Day 0 is a Thursday, so Sundays are the days `≡ 3 [ZMOD 7]`. -/
def weekSunday (d : ℤ) : ℤ := d + (3 - d) % 7

/-- The Monday on or before day `d`: `to_period("W").to_timestamp()` maps a
day to the start (Monday) of its Monday-to-Sunday week. -/
def weekMonday (d : ℤ) : ℤ := d - (d - 4) % 7

/-! Civil-calendar conversion (standard era-based algorithm), needed only to
model the month truncation `datetime(x.year, x.month, 1)` performed by
`centrality`. -/

/-- Day index of 1970-01-01 within the era system. -/
def epochShift : ℤ := 719468

/-- Convert a day index to `(year, month, day)` in the proleptic Gregorian
calendar. -/
def civilFromDays (z : ℤ) : ℤ × ℤ × ℤ :=
  let z' := z + epochShift
  let era := Int.fdiv z' 146097
  let doe := z' - era * 146097
  let yoe := Int.fdiv (doe - Int.fdiv doe 1460 + Int.fdiv doe 36524 - Int.fdiv doe 146096) 365
  let y := yoe + era * 400
  let doy := doe - (365 * yoe + Int.fdiv yoe 4 - Int.fdiv yoe 100)
  let mp := Int.fdiv (5 * doy + 2) 153
  let d := doy - Int.fdiv (153 * mp + 2) 5 + 1
  let m := mp + (if mp < 10 then 3 else -9)
  (y + (if m ≤ 2 then 1 else 0), m, d)

/-- Convert a Gregorian `(year, month, day)` to a day index. -/
def daysFromCivil (y m d : ℤ) : ℤ :=
  let y' := y - (if m ≤ 2 then 1 else 0)
  let era := Int.fdiv y' 400
  let yoe := y' - era * 400
  let mp := (m + 9) % 12
  let doy := Int.fdiv (153 * mp + 2) 5 + d - 1
  let doe := yoe * 365 + Int.fdiv yoe 4 - Int.fdiv yoe 100 + doy
  era * 146097 + doe - epochShift

/-- First day of the month containing day `d`. -/
def monthStartDay (d : ℤ) : ℤ :=
  let c := civilFromDays d
  daysFromCivil c.1 c.2.1 1

/-- Midnight of the first of the month of timestamp `t`: models the
`datetime(x.year, x.month, 1)` truncation in `centrality`. -/
def monthStartMin (t : ℤ) : ℤ := monthStartDay (dayOf t) * minutesPerDay

/-! ## Event log model -/

/-- One comment of an issue's `discussion` column. -/
structure Comment where
  author : ℕ
  date : ℤ
  system : Bool
deriving DecidableEq, Repr

/-- One normalized event row.  `eid` is the id column, `author` the actor
column, `date` the timestamp column, `items` the item-set payload column
(files touched / referenced message ids — already a Python `set` in the
normalized git and mail tables), `discussion` the issues payload. -/
structure Event where
  eid : ℤ
  author : ℕ
  date : ℤ
  items : Finset ℕ
  discussion : List Comment
deriving DecidableEq

/-- Distinct keys in ascending order: the key enumeration produced by
`groupby` with its default `sort=True`. -/
def sortedKeys (l : List ℕ) : List ℕ := List.insertionSort (· ≤ ·) l.dedup

/-- Distinct integer keys in ascending order (for date-valued group keys). -/
def sortedIntKeys (l : List ℤ) : List ℤ := List.insertionSort (· ≤ ·) l.dedup

/-- Distinct pairs in ascending lexicographic order (for the two-column
`groupby(["source", "target"])` of the issues network branch). -/
def sortedPairKeys (l : List (ℕ × ℕ)) : List (ℕ × ℕ) :=
  List.insertionSort (fun p q => p.1 < q.1 ∨ (p.1 = q.1 ∧ p.2 ≤ q.2)) l.dedup

/-! ## Weekly activity aggregator (`activity`, src/comdaan.py lines 123-163)

The `actor` parameter of the Python function is a string tested with
`"reporter" in actor` / `"commenter" in actor`; we model the two substring
tests as the two booleans `rep` and `comm`. -/

/-- Day-granular `(actor, day)` pairs of the reporter rows, after the
line-124 truncation of the timestamp column. -/
def reporterData (rows : List Event) : List (ℕ × ℤ) :=
  rows.map (fun e => (e.author, dayOf e.date))

/-- Day-granular `(actor, day)` pairs of the commenter rows: `explode` of
the `discussion` column followed by extraction of each comment's author and
(truncated) timestamp. -/
def commentRows (rows : List Event) : List (ℕ × ℤ) :=
  (rows.map (fun e => e.discussion.map (fun c => (c.author, dayOf c.date)))).flatten

/-- The rows fed to the daily `groupby` (the `activity_data` concatenation).
The id column is dropped from the model: it is non-null on every row, so
`groupby(...).count()` counts exactly the rows of each group. -/
def activityData (rows : List Event) (rep comm : Bool) : List (ℕ × ℤ) :=
  (if rep then reporterData rows else []) ++ (if comm then commentRows rows else [])

/-- Entries of one actor on one day: the `groupby([author, date]).count()`
cell for that key. -/
def dailyCount (data : List (ℕ × ℤ)) (a : ℕ) (d : ℤ) : ℕ :=
  data.countP (fun p => p.1 = a ∧ p.2 = d)

/-- The distinct days on which actor `a` was active, ascending (the date
level of the daily `MultiIndex` within one author group). -/
def daysOfAuthor (data : List (ℕ × ℤ)) (a : ℕ) : List ℤ :=
  sortedIntKeys ((data.filter (fun p => p.1 = a)).map (fun p => p.2))

/-- Arithmetic 7-day progression from `first` to `last` (both Sundays):
the bucket labels emitted by `resample("W")` for data spanning those
weeks. -/
def weekSeq (first last : ℤ) : List ℤ :=
  (List.range ((last - first).toNat / 7 + 1)).map (fun i : ℕ => first + 7 * (i : ℤ))

/-- The weekly bucket labels generated by `resample("W", level=1)` inside
the group of actor `a`: every Sunday from the week of the actor's first
active day to the week of their last active day. -/
def authorWeeks (data : List (ℕ × ℤ)) (a : ℕ) : List ℤ :=
  match daysOfAuthor data a with
  | [] => []
  | d :: ds => weekSeq (weekSunday ((d :: ds).foldl min d)) (weekSunday ((d :: ds).foldl max d))

/-- The resampled weekly sum for actor `a` and bucket label `w`: the sum of
the actor's daily counts over the days of that bucket. -/
def weeklyCount (data : List (ℕ × ℤ)) (a : ℕ) (w : ℤ) : ℕ :=
  (((daysOfAuthor data a).filter (fun d => weekSunday d = w)).map (dailyCount data a)).sum

/-- One row of the weekly activity output.  `date` is the bucket label
shifted back three days (line 160), stored as a timestamp; the derived
`week_name` display string is not modelled. -/
structure ActRow where
  author : ℕ
  date : ℤ
  count : ℕ
deriving DecidableEq

/-- The weekly rows of one author group: the resampled sums over the
author's bucket labels, with zero-count weeks dropped (line 158) and each
label shifted back three days (line 160). -/
def authorRows (data : List (ℕ × ℤ)) (a : ℕ) : List ActRow :=
  (authorWeeks data a).filterMap (fun w =>
    if 0 < weeklyCount data a w then
      some ⟨a, (w - 3) * minutesPerDay, weeklyCount data a w⟩ else none)

/-- The weekly activity dataframe: per author (ascending), per bucket label
(ascending), the resampled sum, with zero-count weeks dropped (line 158)
and the label shifted back three days (line 160). -/
def weeklyActivityRows (data : List (ℕ × ℤ)) : List ActRow :=
  ((sortedKeys (data.map (fun p => p.1))).map (fun a => authorRows data a)).flatten

/-- The reporter-role author catalogue before the `set` dedup: distinct
authors sorted descending by `(earliest truncated date, author)`
(lines 130-134). -/
def reporterAuthorsSorted (rows : List Event) : List ℕ :=
  (List.insertionSort
    (fun p q : ℤ × ℕ => q.1 < p.1 ∨ (p.1 = q.1 ∧ q.2 ≤ p.2))
    ((sortedKeys ((reporterData rows).map (fun p => p.1))).map (fun a =>
      (match ((reporterData rows).filter (fun p => p.1 = a)).map (fun p => p.2) with
       | [] => 0
       | d :: ds => (d :: ds).foldl min d, a)))).map (fun p => p.2)

/-- The commenter-role author catalogue before the `set` dedup: all comment
rows sorted descending by `(truncated date, author)`, authors taken with
repetition (lines 148-150). -/
def commenterAuthorsSorted (rows : List Event) : List ℕ :=
  (List.insertionSort
    (fun p q : ℤ × ℕ => q.1 < p.1 ∨ (p.1 = q.1 ∧ q.2 ≤ p.2))
    ((commentRows rows).map (fun p => (p.2, p.1)))).map (fun p => p.2)

/-- The concatenated author list to which line 153 applies `list(set(...))`. -/
def authorsPreSet (rows : List Event) (rep comm : Bool) : List ℕ :=
  (if rep then reporterAuthorsSorted rows else []) ++
    (if comm then commenterAuthorsSorted rows else [])

/-- Result of `activity`: the weekly dataframe and the author list. -/
structure ActivityRes where
  dataframe : List ActRow
  authors : List ℕ
deriving DecidableEq

/-- The `activity` operation.  `setList` models Python's `list(set(...))`
(line 153): a hash-table enumeration of the distinct elements, constrained
elsewhere only to return each distinct element exactly once.  The result is
`none` where the Python code raises: when no role is selected (the daily
`groupby` then references absent columns), or when the commenter branch
`explode`s an issue with an empty discussion (its comment row is `NaN` and
line 139 raises `TypeError`). -/
def activity (setList : List ℕ → List ℕ) (rows : List Event) (rep comm : Bool) :
    Option ActivityRes :=
  if rep = false ∧ comm = false then none
  else if comm ∧ rows.any (fun e => e.discussion.isEmpty) then none
  else some ⟨weeklyActivityRows (activityData rows rep comm),
             setList (authorsPreSet rows rep comm)⟩

/-- The spec's description of the author catalogue (§4.2): the distinct
actors of the selected roles, ordered by each actor's earliest activity
date descending, tie-broken by actor name descending.  This definition
follows the spec's words and serves only as the comparison point for the
refutation of claim C1. -/
def specAuthorOrder (rows : List Event) (rep comm : Bool) : List ℕ :=
  (List.insertionSort
    (fun p q : ℤ × ℕ => q.1 < p.1 ∨ (p.1 = q.1 ∧ q.2 ≤ p.2))
    ((sortedKeys ((activityData rows rep comm).map (fun p => p.1))).map (fun a =>
      (match ((activityData rows rep comm).filter (fun p => p.1 = a)).map (fun p => p.2) with
       | [] => 0
       | d :: ds => (d :: ds).foldl min d, a)))).map (fun p => p.2)

/-! ## Team-size aggregator (`teamsize`, src/comdaan.py lines 166-212)

Only the reporter branch is modelled (it is the one exercised by claim C5,
which feeds it a weekly activity output — a table without a `discussion`
column).  The LOWESS columns appended at lines 209-210 are modelled
separately through `lowessFracArg` (claim C6) since only the bandwidth
argument, not the regression itself, is at issue. -/

/-- The week bucket assigned by the reporter branch: the timestamp is
truncated to its day (line 171), mapped to the Monday starting its
Monday-to-Sunday week (line 172: `to_period("W").to_timestamp()`), and
shifted back three days (line 173). -/
def tsDate (t : ℤ) : ℤ := (weekMonday (dayOf t) - 3) * minutesPerDay

/-- One row of the team-size output (pre-smoothing columns). -/
structure TsRow where
  date : ℤ
  entry_count : ℕ
  author_count : ℕ
deriving DecidableEq

/-- The reporter-role team-size table: group by the rebucketed date
(ascending); `entry_count` is the `count()` of the non-null id column —
the number of rows of the group — and `author_count` the `nunique()` of
the author column. -/
def teamsizeReporter (rows : List Event) : List TsRow :=
  (sortedIntKeys (rows.map (fun e => tsDate e.date))).map (fun b =>
    ⟨b, rows.countP (fun e => tsDate e.date = b),
        (((rows.filter (fun e => tsDate e.date = b)).map (fun e => e.author)).dedup).length⟩)

/-- Reinterpret one weekly activity row as an input row for `teamsize`, as
claim C5 prescribes: the `count` column serves as the id column, and the
actor and week-date columns keep their roles. -/
def actRowEvent (r : ActRow) : Event := ⟨(r.count : ℤ), r.author, r.date, ∅, []⟩

/-! ## Collaboration graph builder (`_network_from_dataframe`,
src/comdaan.py lines 39-100)

`networkx` graphs are modelled concretely: nodes in insertion order, at
most one edge per unordered node pair, edge weights as the `weight`
attribute.  `nx.convert_matrix.from_pandas_edgelist` inserts the two
endpoints of every edge-list row (adding missing nodes) and sets the
pair's weight, overwriting the weight if the pair repeats. -/

/-- A `networkx` graph: node list (insertion order) and weighted edges. -/
structure Graph where
  nodes : List ℕ
  edges : List (ℕ × ℕ × ℕ)
deriving DecidableEq

/-- Whether an edge-list entry joins the unordered pair `{u, v}`. -/
def sameEdge (u v : ℕ) (e : ℕ × ℕ × ℕ) : Bool :=
  (e.1 = u ∧ e.2.1 = v) ∨ (e.1 = v ∧ e.2.1 = u)

/-- `networkx` node insertion: append the node unless already present. -/
def addNode (g : Graph) (n : ℕ) : Graph :=
  if n ∈ g.nodes then g else { g with nodes := g.nodes ++ [n] }

/-- `networkx` edge insertion with a `weight` attribute: both endpoints are
inserted as nodes; a repeated unordered pair has its weight overwritten. -/
def addEdge (g : Graph) (u v : ℕ) (w : ℕ) : Graph :=
  let g' := addNode (addNode g u) v
  if g'.edges.any (sameEdge u v) then
    { g' with edges := g'.edges.map (fun e => if sameEdge u v e then (e.1, e.2.1, w) else e) }
  else
    { g' with edges := g'.edges ++ [(u, v, w)] }

/-- `from_pandas_edgelist`: fold the edge-list rows into an empty graph. -/
def fromEdgeList (l : List (ℕ × ℕ × ℕ)) : Graph :=
  l.foldl (fun g e => addEdge g e.1 e.2.1 e.2.2) ⟨[], []⟩

/-- Lines 93-98: collect the edges whose weight is 0 and remove them;
nodes are untouched.  Since each unordered pair carries one edge, removal
by pair equals filtering on the weight. -/
def removeZeroWeightEdges (g : Graph) : Graph :=
  { g with edges := g.edges.filter (fun e => ¬ e.2.2 = 0) }

/-- The author keys of the general branch's `groupby(author)` (line 73/78),
ascending. -/
def builderAuthors (rows : List Event) : List ℕ := sortedKeys (rows.map (fun e => e.author))

/-- The aggregated item set of one author: `reduce(set.union, ...)` over
the author's rows of one item column (line 79). -/
def authorItems (rows : List Event) (item : Event → Finset ℕ) (a : ℕ) : Finset ℕ :=
  ((rows.filter (fun e => e.author = a)).map item).foldr (· ∪ ·) ∅

/-- `itertools.combinations(keys, 2)`: all pairs of distinct authors in key
order. -/
def pairsList : List ℕ → List (ℕ × ℕ)
  | [] => []
  | x :: xs => (xs.map (fun y => (x, y))) ++ pairsList xs

/-- The general (git/mail) branch of `_network_from_dataframe`
(lines 59-92): one candidate edge per unordered author pair, weighted by
`|target-items(source-author) ∩ source-items(target-author)|` (line 83-88),
then zero-weight edges removed.  When the Python caller passes
`source_col_name=None`, `source` and `target` are the same accessor
(lines 71-74).  The item columns of the normalized git and mail tables
already hold Python sets, so the `to_set` coercion leaves them unchanged. -/
def networkFromDataframe (rows : List Event) (target source : Event → Finset ℕ) : Graph :=
  removeZeroWeightEdges (fromEdgeList
    ((pairsList (builderAuthors rows)).map (fun p =>
      (p.1, p.2, ((authorItems rows target p.1) ∩ (authorItems rows source p.2)).card))))

/-- The exploded `(issue author, commenter)` pairs of the issues branch
(lines 43-55). -/
def issuesEdgePairs (rows : List Event) : List (ℕ × ℕ) :=
  (rows.map (fun e => e.discussion.map (fun c => (e.author, c.author)))).flatten

/-- The issues branch of `_network_from_dataframe` (lines 43-57 and 92-98):
`groupby(["source", "target"]).size()` of the exploded pairs gives one
edge-list row per distinct pair with its multiplicity as weight. -/
def issuesNetworkFromDataframe (rows : List Event) : Graph :=
  removeZeroWeightEdges (fromEdgeList
    ((sortedPairKeys (issuesEdgePairs rows)).map (fun p =>
      (p.1, p.2, (issuesEdgePairs rows).count p))))

/-- `networkx` node degree: each incident edge counts once, a self-loop
twice. -/
def degree (g : Graph) (v : ℕ) : ℕ :=
  (g.edges.map (fun e => (if e.1 = v then 1 else 0) + (if e.2.1 = v then 1 else 0))).sum

/-- `nx.degree_centrality`: for a graph with at most one node it returns
`{n: 1 for n in G}`; otherwise each node's degree times `1 / (n - 1)`. -/
def degreeCentrality (g : Graph) (v : ℕ) : ℚ :=
  if g.nodes.length ≤ 1 then 1
  else (degree g v : ℚ) / ((g.nodes.length : ℚ) - 1)

/-- The `network` operation (lines 216-222): the builder's graph paired
with each node's degree centrality. -/
def network (rows : List Event) (target source : Event → Finset ℕ) : List (ℕ × ℚ) :=
  let g := networkFromDataframe rows target source
  g.nodes.map (fun v => (v, degreeCentrality g v))

/-- The `network` operation applied to an issues table, where the runtime
`isinstance` test of line 43 selects the discussion branch. -/
def issuesNetwork (rows : List Event) : List (ℕ × ℚ) :=
  let g := issuesNetworkFromDataframe rows
  g.nodes.map (fun v => (v, degreeCentrality g v))

/-! ## Sliding-window centrality engine, guard and smoothing default
(`centrality`, src/comdaan.py lines 225-307)

Only the parts at issue in the claims are modelled: the name-discovery
guard of lines 228-230 and the LOWESS bandwidth default of lines 207, 276
and 343.  The windowed series computation behind the guard (a worker pool
of graph builds followed by LOWESS smoothing of floating-point series) is
not embedded; `centralityCatalog` returns `none` exactly when the Python
function proceeds past the guard. -/

/-- `dataframe[author].sort_values().unique()` (line 228): the distinct
actor names ascending (`unique` keeps the first — hence sorted —
occurrence of each value). -/
def centralityAuthors (rows : List Event) : List ℕ :=
  (List.insertionSort (· ≤ ·) (rows.map (fun e => e.author))).dedup

/-- The guard of lines 229-230.  `name` is the optional target actor:
`none` models an omitted/`None` argument and `some 0` the empty string
(both falsy in `if not name`); `authors.count(name) == 0` is the
membership test.  `some catalog` is the early return of the actor
catalogue; `none` means the engine proceeds to the windowed computation. -/
def centralityCatalog (rows : List Event) (name : Option ℕ) : Option (List ℕ) :=
  let authors := centralityAuthors rows
  if name = none ∨ name = some 0 ∨ ¬ name.getD 0 ∈ authors then some authors else none

/-- The default LOWESS bandwidth fraction `10 * len(x) ** (-0.75)`
(lines 207, 276, 343), used when the caller passes `frac=None`. -/
noncomputable def defaultFrac (n : ℕ) : ℝ := 10 * (n : ℝ) ^ (-(3 / 4 : ℝ))

/-- The bandwidth actually handed to `lowess`: `frac if frac < 1 else 0.8`
(lines 209-210, 277, 284, 301, 344). -/
noncomputable def lowessFracArg (frac : ℝ) : ℝ := if frac < 1 then frac else 0.8

/-! ## Issue response analyzer (`response`, src/comdaan.py lines 310-350) -/

/-- A sorted issue row after line 330 replaced the discussion column by the
first-response timestamp (`None` when unanswered). -/
structure RIssue where
  rid : ℤ
  author : ℕ
  created : ℤ
  resp : Option ℤ
deriving DecidableEq

/-- `filter_notes` (lines 314-318): the timestamp of the first comment
flagged `system` whose author differs from the issue's author. -/
def filterNotes (a : ℕ) (disc : List Comment) : Option ℤ :=
  (disc.find? (fun c => c.system ∧ ¬ c.author = a)).map (fun c => c.date)

/-- Lines 311-312 and 330: sort the issues by creation time ascending,
reset to a dense 0-based index, and compute each issue's first-response
timestamp. -/
def responsePrep (issues : List Event) : List RIssue :=
  (List.insertionSort (fun e f : Event => e.date ≤ f.date) issues).map
    (fun e => ⟨e.eid, e.author, e.date, filterNotes e.author e.discussion⟩)

/-- Whether a walked row counts as answered relative to `target`'s creation
time: its response timestamp exists (`not pd.isna(...)`) and is at most
`target`'s creation time (line 323). -/
def answeredBefore (target : RIssue) (i : RIssue) : Bool :=
  match i.resp with
  | some t => t ≤ target.created
  | none => false

/-- `get_rates` (lines 320-328): walk the sorted list accumulating the
index and the answered count, incrementing `answered` before testing the
id; at the row whose id matches the target's, return
`index - answered + 1`.  `none` models falling off the end (the Python
`return None`). -/
def getRates (target : RIssue) : List RIssue → ℤ → ℤ → Option ℤ
  | [], _, _ => none
  | i :: rest, idx, answered =>
    let ans := if answeredBefore target i then answered + 1 else answered
    if i.rid = target.rid then some (idx - ans + 1) else getRates target rest (idx + 1) ans

/-- The `unanswered_to_this_date` series of `response` (line 331 and the
first component of the returned tuple): per sorted issue, its creation
time and `get_rates` value. -/
def unansweredSeries (issues : List Event) : List (ℤ × Option ℤ) :=
  let L := responsePrep issues
  L.map (fun i => (i.created, getRates i L 0 0))

/-! ## Frame effects (claim C7)

The contents of the caller's table after each operation, per the in-place
column assignments of the source. -/

/-- After `activity` (line 124): the timestamp column is truncated to
day precision in place; every other column is untouched. -/
def activityEffect (rows : List Event) : List Event :=
  rows.map (fun e => { e with date := dayStartMin e.date })

/-- After `teamsize` with the reporter role (lines 171-173): the timestamp
column is rewritten to the shifted week bucket in place.  (With
`actor="commenter"` alone these lines are skipped and the input is
untouched: `explode` rebinds the local name to a new frame.) -/
def teamsizeReporterEffect (rows : List Event) : List Event :=
  rows.map (fun e => { e with date := tsDate e.date })

/-- After `centrality` past the guard (line 231): the timestamp column is
truncated to the first of its month in place. -/
def centralityEffect (rows : List Event) : List Event :=
  rows.map (fun e => { e with date := monthStartMin e.date })

/-- After `network` on a table whose item columns already hold sets (the
normalized git and mail tables): `to_set` tests `isinstance(..., set)` and
leaves the frame untouched, and the builder assigns no other column. -/
def networkEffect (rows : List Event) : List Event := rows

/-- After `response`: `sort_values` (line 311) returns a new frame and all
later assignments hit that copy, so the caller's table is untouched. -/
def responseEffect (rows : List Event) : List Event := rows

/-- Lookup of a team-size row by bucket date (used to state claim C5). -/
def weekEntryCount (tbl : List TsRow) (b : ℤ) : Option ℕ :=
  (tbl.find? (fun r => r.date = b)).map (fun r => r.entry_count)

/-! ## Theorems -/

theorem centralityAuthors_sorted (rows : List Event) :
    (centralityAuthors rows).Sorted (· ≤ ·) := by
  have h := List.sorted_insertionSort (· ≤ ·) (rows.map (fun e => e.author))
  exact h.sublist (List.dedup_sublist _)

theorem centralityAuthors_nodup (rows : List Event) : (centralityAuthors rows).Nodup :=
  List.nodup_dedup _

theorem mem_centralityAuthors (rows : List Event) (a : ℕ) :
    a ∈ centralityAuthors rows ↔ a ∈ rows.map (fun e => e.author) := by
  unfold centralityAuthors
  rw [List.mem_dedup]
  exact (List.perm_insertionSort _ _).mem_iff

/-- Claim C9: calling `centrality` with an actor name absent from the
table's distinct actor set performs no window computation and returns the
full distinct actor list sorted ascending, as a normal value. -/
theorem centrality_unknown_name_returns_catalog (rows : List Event) (n : ℕ)
    (h : ¬ n ∈ rows.map (fun e => e.author)) :
    centralityCatalog rows (some n) = some (centralityAuthors rows) ∧
      (centralityAuthors rows).Sorted (· ≤ ·) ∧ (centralityAuthors rows).Nodup ∧
      (∀ a, a ∈ centralityAuthors rows ↔ a ∈ rows.map (fun e => e.author)) := by
  refine ⟨?_, centralityAuthors_sorted rows, centralityAuthors_nodup rows,
    fun a => mem_centralityAuthors rows a⟩
  have h' : ¬ n ∈ centralityAuthors rows := fun hc => h ((mem_centralityAuthors rows n).mp hc)
  simp [centralityCatalog, h']

/-- Witness for C9 on a concrete table and unknown name. -/
theorem centrality_unknown_name_returns_catalog_witness :
    centralityCatalog [⟨1, 7, 0, ∅, []⟩] (some 9) = some (centralityAuthors [⟨1, 7, 0, ∅, []⟩]) ∧
      (centralityAuthors [⟨1, 7, 0, ∅, []⟩]).Sorted (· ≤ ·) ∧
      (centralityAuthors [⟨1, 7, 0, ∅, []⟩]).Nodup ∧
      (∀ a, a ∈ centralityAuthors [⟨1, 7, 0, ∅, []⟩] ↔
        a ∈ ([⟨1, 7, 0, ∅, []⟩] : List Event).map (fun e => e.author)) :=
  centrality_unknown_name_returns_catalog [⟨1, 7, 0, ∅, []⟩] 9 (by decide)

/-- Claim C10: calling `centrality` with the name omitted (`None`) or equal
to the empty string returns the sorted distinct actor list exactly as the
unknown-name discovery mode does, instead of raising or computing any
series. -/
theorem centrality_no_name_returns_catalog (rows : List Event) :
    centralityCatalog rows none = some (centralityAuthors rows) ∧
      centralityCatalog rows (some 0) = some (centralityAuthors rows) := by
  constructor <;> simp [centralityCatalog]

theorem rpow_three_quarters_pow_four (n : ℕ) :
    ((n : ℝ) ^ ((3 : ℝ) / 4)) ^ (4 : ℕ) = (n : ℝ) ^ (3 : ℕ) := by
  have hn : (0 : ℝ) ≤ (n : ℝ) := Nat.cast_nonneg n
  rw [← Real.rpow_natCast ((n : ℝ) ^ ((3 : ℝ) / 4)) 4, ← Real.rpow_mul hn,
    show (3 : ℝ) / 4 * ((4 : ℕ) : ℝ) = ((3 : ℕ) : ℝ) by norm_num,
    Real.rpow_natCast]

theorem defaultFrac_eq (n : ℕ) (hn : 1 ≤ n) :
    defaultFrac n = 10 / ((n : ℝ) ^ ((3 : ℝ) / 4)) := by
  have hpos : (0 : ℝ) < (n : ℝ) := by exact_mod_cast hn
  rw [defaultFrac, Real.rpow_neg (le_of_lt hpos)]
  ring

theorem defaultFrac_lt_one_iff (n : ℕ) (hn : 1 ≤ n) :
    defaultFrac n < 1 ↔ 10000 < n ^ 3 := by
  have hpos : (0 : ℝ) < (n : ℝ) := by exact_mod_cast hn
  have hxpos : (0 : ℝ) < (n : ℝ) ^ ((3 : ℝ) / 4) := Real.rpow_pos_of_pos hpos _
  rw [defaultFrac_eq n hn, div_lt_one hxpos]
  constructor
  · intro h
    have h4 : (10 : ℝ) ^ (4 : ℕ) < ((n : ℝ) ^ ((3 : ℝ) / 4)) ^ (4 : ℕ) := by
      exact pow_lt_pow_left h (by norm_num) (by norm_num)
    rw [rpow_three_quarters_pow_four] at h4
    have : (10000 : ℝ) < ((n ^ 3 : ℕ) : ℝ) := by push_cast; push_cast at h4; nlinarith
    exact_mod_cast this
  · intro h
    by_contra hle
    push_neg at hle
    have h4 : ((n : ℝ) ^ ((3 : ℝ) / 4)) ^ (4 : ℕ) ≤ (10 : ℝ) ^ (4 : ℕ) :=
      pow_le_pow_left (le_of_lt hxpos) hle 4
    rw [rpow_three_quarters_pow_four] at h4
    have hc : ((n ^ 3 : ℕ) : ℝ) ≤ 10000 := by push_cast; push_cast at h4; nlinarith
    have : (n : ℕ) ^ 3 ≤ 10000 := by exact_mod_cast hc
    omega

/-- Claim C6 (corrected): with no caller-supplied bandwidth, the fraction
passed to LOWESS is `10 * n^(-0.75)` whenever that value is below 1 — even
when it exceeds 0.8, which happens for 22 ≤ n ≤ 29 — and 0.8 only when the
raw value is at least 1 (that is, when n ≤ 21); so the passed fraction is
always below 1 but not capped at 0.8. -/
theorem lowess_default_frac_clamp (n : ℕ) (hn : 1 ≤ n) :
    (n ≤ 21 → lowessFracArg (defaultFrac n) = 0.8) ∧
      (22 ≤ n → lowessFracArg (defaultFrac n) = defaultFrac n) ∧
      lowessFracArg (defaultFrac n) < 1 := by
  have hiff := defaultFrac_lt_one_iff n hn
  refine ⟨?_, ?_, ?_⟩
  · intro h21
    have hcube : n ^ 3 ≤ 9261 := by
      calc n ^ 3 ≤ 21 ^ 3 := Nat.pow_le_pow_left h21 3
      _ = 9261 := by norm_num
    have : ¬ defaultFrac n < 1 := by rw [hiff]; omega
    simp [lowessFracArg, this]
  · intro h22
    have hcube : 10648 ≤ n ^ 3 := by
      calc (10648 : ℕ) = 22 ^ 3 := by norm_num
      _ ≤ n ^ 3 := Nat.pow_le_pow_left h22 3
    have : defaultFrac n < 1 := by rw [hiff]; omega
    simp [lowessFracArg, this]
  · by_cases h : defaultFrac n < 1
    · simp [lowessFracArg, h]
    · simp [lowessFracArg, h]; norm_num

/-- Witness for C6 at n = 22 concrete. -/
theorem lowess_default_frac_clamp_witness :
    lowessFracArg (defaultFrac 22) = defaultFrac 22 ∧ lowessFracArg (defaultFrac 22) < 1 :=
  ⟨(lowess_default_frac_clamp 22 (by norm_num)).2.1 (by norm_num),
   (lowess_default_frac_clamp 22 (by norm_num)).2.2⟩

/-- Counterexample to claim C6 as stated: at n = 25 points the default
fraction `10 * 25^(-0.75)` is about 0.894 — strictly above 0.8 — and it is
below 1, so the `frac if frac < 1 else 0.8` guard passes it through
unclamped: the fraction actually given to LOWESS exceeds 0.8. -/
theorem lowess_default_frac_not_capped_at_08 :
    (0.8 : ℝ) < lowessFracArg (defaultFrac 25) := by
  have h1 : defaultFrac 25 < 1 := (defaultFrac_lt_one_iff 25 (by norm_num)).mpr (by norm_num)
  have hxpos : (0 : ℝ) < (25 : ℕ) ^ ((3 : ℝ) / 4 : ℝ) := Real.rpow_pos_of_pos (by norm_num) _
  have hx4 : (((25 : ℕ) : ℝ) ^ ((3 : ℝ) / 4)) ^ (4 : ℕ) = ((25 : ℕ) : ℝ) ^ (3 : ℕ) :=
    rpow_three_quarters_pow_four 25
  have hlt : ((25 : ℕ) : ℝ) ^ ((3 : ℝ) / 4) < 12.5 := by
    by_contra hge
    push_neg at hge
    have : (12.5 : ℝ) ^ (4 : ℕ) ≤ (((25 : ℕ) : ℝ) ^ ((3 : ℝ) / 4)) ^ (4 : ℕ) :=
      pow_le_pow_left (by norm_num) hge 4
    rw [hx4] at this
    push_cast at this
    nlinarith
  have h08 : (0.8 : ℝ) < defaultFrac 25 := by
    rw [defaultFrac_eq 25 (by norm_num)]
    rw [lt_div_iff (by exact_mod_cast hxpos)]
    push_cast at hlt ⊢
    nlinarith
  rw [lowessFracArg, if_pos h1]
  exact h08

theorem mem_sortedKeys (l : List ℕ) (a : ℕ) : a ∈ sortedKeys l ↔ a ∈ l := by
  unfold sortedKeys
  rw [(List.perm_insertionSort _ _).mem_iff, List.mem_dedup]

theorem sortedKeys_nodup (l : List ℕ) : (sortedKeys l).Nodup :=
  ((List.perm_insertionSort _ _).nodup_iff).mpr (List.nodup_dedup l)

theorem mem_addNode (g : Graph) (m n : ℕ) (h : n ∈ g.nodes) : n ∈ (addNode g m).nodes := by
  unfold addNode
  split <;> simp [h]

theorem mem_addNode_self (g : Graph) (n : ℕ) : n ∈ (addNode g n).nodes := by
  unfold addNode
  split
  · assumption
  · simp

theorem addEdge_nodes (g : Graph) (u v w : ℕ) :
    (addEdge g u v w).nodes = (addNode (addNode g u) v).nodes := by
  unfold addEdge
  by_cases h : ((addNode (addNode g u) v).edges.any (sameEdge u v)) = true
  · simp [h]
  · simp [h]

theorem mem_addEdge (g : Graph) (u v w n : ℕ) (h : n ∈ g.nodes) :
    n ∈ (addEdge g u v w).nodes := by
  rw [addEdge_nodes]
  exact mem_addNode _ _ _ (mem_addNode _ _ _ h)

theorem mem_addEdge_left (g : Graph) (u v w : ℕ) : u ∈ (addEdge g u v w).nodes := by
  rw [addEdge_nodes]
  exact mem_addNode _ _ _ (mem_addNode_self g u)

theorem mem_addEdge_right (g : Graph) (u v w : ℕ) : v ∈ (addEdge g u v w).nodes := by
  rw [addEdge_nodes]
  exact mem_addNode_self _ v

theorem foldl_addEdge_mono (l : List (ℕ × ℕ × ℕ)) (g : Graph) (n : ℕ) (h : n ∈ g.nodes) :
    n ∈ (l.foldl (fun g e => addEdge g e.1 e.2.1 e.2.2) g).nodes := by
  induction l generalizing g with
  | nil => exact h
  | cons e rest ih => exact ih _ (mem_addEdge _ _ _ _ _ h)

theorem fromEdgeList_mem_nodes (l : List (ℕ × ℕ × ℕ)) (g : Graph) (e : ℕ × ℕ × ℕ)
    (he : e ∈ l) :
    e.1 ∈ (l.foldl (fun g e => addEdge g e.1 e.2.1 e.2.2) g).nodes ∧
      e.2.1 ∈ (l.foldl (fun g e => addEdge g e.1 e.2.1 e.2.2) g).nodes := by
  induction l generalizing g with
  | nil => cases he
  | cons f rest ih =>
    rcases List.mem_cons.mp he with rfl | hmem
    · rw [List.foldl_cons]
      exact ⟨foldl_addEdge_mono _ _ _ (mem_addEdge_left _ _ _ _),
        foldl_addEdge_mono _ _ _ (mem_addEdge_right _ _ _ _)⟩
    · rw [List.foldl_cons]
      exact ih _ hmem

theorem pairsList_covers (l : List ℕ) (hlen : 2 ≤ l.length) (a : ℕ) (ha : a ∈ l) :
    ∃ p ∈ pairsList l, p.1 = a ∨ p.2 = a := by
  cases l with
  | nil => cases ha
  | cons x xs =>
    rcases List.mem_cons.mp ha with rfl | hmem
    · cases xs with
      | nil => simp at hlen
      | cons y ys =>
        exact ⟨(a, y), by simp [pairsList], Or.inl rfl⟩
    · exact ⟨(x, a), by simp [pairsList, hmem], Or.inr rfl⟩

/-- Claim C4 (corrected): the graph builder returns no zero-weight edge (in
either branch), and — provided the slice has at least two distinct actors —
every actor of the slice is a node of the general-branch graph, even when
all of that actor's candidate edges were dropped for having weight 0.  (A
slice with a single distinct actor instead yields a graph with no nodes at
all: see the counterexample.) -/
theorem builder_no_zero_edges_and_nodes (rows : List Event)
    (target source : Event → Finset ℕ) :
    (∀ e ∈ (networkFromDataframe rows target source).edges, e.2.2 ≠ 0) ∧
      (∀ e ∈ (issuesNetworkFromDataframe rows).edges, e.2.2 ≠ 0) ∧
      (2 ≤ (builderAuthors rows).length →
        ∀ r ∈ rows, r.author ∈ (networkFromDataframe rows target source).nodes) := by
  refine ⟨?_, ?_, ?_⟩
  · intro e he
    have := (List.mem_filter.mp he).2
    simpa using this
  · intro e he
    have := (List.mem_filter.mp he).2
    simpa using this
  · intro hlen r hr
    have hmem : r.author ∈ builderAuthors rows := by
      rw [builderAuthors, mem_sortedKeys]
      exact List.mem_map.mpr ⟨r, hr, rfl⟩
    obtain ⟨p, hp, hpa⟩ := pairsList_covers _ hlen _ hmem
    have hedge : (p.1, p.2, ((authorItems rows target p.1) ∩ (authorItems rows source p.2)).card) ∈
        (pairsList (builderAuthors rows)).map (fun p =>
          (p.1, p.2, ((authorItems rows target p.1) ∩ (authorItems rows source p.2)).card)) :=
      List.mem_map.mpr ⟨p, hp, rfl⟩
    have hnodes := fromEdgeList_mem_nodes _ ⟨[], []⟩ _ hedge
    rcases hpa with h1 | h2
    · exact h1 ▸ hnodes.1
    · exact h2 ▸ hnodes.2

/-- Witness for C4 (corrected) on a two-actor slice with disjoint item
sets: no zero-weight edge survives and both actors remain as isolated
nodes. -/
theorem builder_no_zero_edges_and_nodes_witness :
    (∀ e ∈ (networkFromDataframe [⟨1, 5, 0, {3}, []⟩, ⟨2, 6, 0, {4}, []⟩]
        (fun e => e.items) (fun e => e.items)).edges, e.2.2 ≠ 0) ∧
      5 ∈ (networkFromDataframe [⟨1, 5, 0, {3}, []⟩, ⟨2, 6, 0, {4}, []⟩]
        (fun e => e.items) (fun e => e.items)).nodes :=
  ⟨(builder_no_zero_edges_and_nodes [⟨1, 5, 0, {3}, []⟩, ⟨2, 6, 0, {4}, []⟩]
      (fun e => e.items) (fun e => e.items)).1,
   (builder_no_zero_edges_and_nodes [⟨1, 5, 0, {3}, []⟩, ⟨2, 6, 0, {4}, []⟩]
      (fun e => e.items) (fun e => e.items)).2.2 (by decide) ⟨1, 5, 0, {3}, []⟩ (by decide)⟩

/-- Counterexample to claim C4 as stated: a non-empty slice with a single
actor (one git-style row by actor 5 touching item 3).  The actor appears in
the slice, but `itertools.combinations` of one author yields no pairs, the
edge list is empty, and `from_pandas_edgelist` creates nodes only from
edge-list rows — so the graph has no nodes and the actor is absent. -/
theorem builder_drops_lone_actor :
    (networkFromDataframe [⟨1, 5, 0, {3}, []⟩] (fun e => e.items) (fun e => e.items)).nodes = []
      ∧ 5 ∈ ([⟨1, 5, 0, {3}, []⟩] : List Event).map (fun e => e.author) := by
  constructor
  · rfl
  · decide

/-- Claim C3 (corrected): on any builder graph with at least two nodes,
`nx.degree_centrality` reports, for each node, its degree divided by
(node count − 1).  For a single-node graph — producible only by the issues
branch, via a reporter commenting on their own issue — networkx instead
short-circuits to 1.0, not 0.0; an empty graph has no nodes, hence no
reported values. -/
theorem network_degree_centrality_formula (rows : List Event)
    (target source : Event → Finset ℕ) (g : Graph)
    (hg : g = networkFromDataframe rows target source ∨ g = issuesNetworkFromDataframe rows)
    (hlen : 2 ≤ g.nodes.length) (v : ℕ) :
    degreeCentrality g v = (degree g v : ℚ) / ((g.nodes.length : ℚ) - 1) := by
  have h : ¬ g.nodes.length ≤ 1 := by omega
  rw [degreeCentrality, if_neg h]

/-- Witness for C3 on the two-actor slice sharing item 3: both nodes have
degree 1 and centrality 1/(2−1) = 1, the claim's own 2-node check. -/
theorem network_degree_centrality_formula_witness :
    degreeCentrality (networkFromDataframe [⟨1, 5, 0, {3}, []⟩, ⟨2, 6, 0, {3, 4}, []⟩]
        (fun e => e.items) (fun e => e.items)) 5 =
      (degree (networkFromDataframe [⟨1, 5, 0, {3}, []⟩, ⟨2, 6, 0, {3, 4}, []⟩]
        (fun e => e.items) (fun e => e.items)) 5 : ℚ) /
        (((networkFromDataframe [⟨1, 5, 0, {3}, []⟩, ⟨2, 6, 0, {3, 4}, []⟩]
        (fun e => e.items) (fun e => e.items)).nodes.length : ℚ) - 1) :=
  network_degree_centrality_formula [⟨1, 5, 0, {3}, []⟩, ⟨2, 6, 0, {3, 4}, []⟩]
    (fun e => e.items) (fun e => e.items) _ (Or.inl rfl) (by decide) 5

/-- Counterexample to claim C3 as stated: one issue whose reporter
(actor 5) comments on their own issue yields the single-node graph with a
self-loop; `nx.degree_centrality` returns 1.0 for its node, not 0.0. -/
theorem single_node_centrality_is_one :
    degreeCentrality (issuesNetworkFromDataframe [⟨1, 5, 0, ∅, [⟨5, 10, false⟩]⟩]) 5 = 1 ∧
      (issuesNetworkFromDataframe [⟨1, 5, 0, ∅, [⟨5, 10, false⟩]⟩]).nodes = [5] ∧
      degreeCentrality (issuesNetworkFromDataframe [⟨1, 5, 0, ∅, [⟨5, 10, false⟩]⟩]) 5 ≠ 0 := by
  have hn : (issuesNetworkFromDataframe [⟨1, 5, 0, ∅, [⟨5, 10, false⟩]⟩]).nodes = [5] := by decide
  refine ⟨?_, hn, ?_⟩
  · rw [degreeCentrality, if_pos (by rw [hn]; decide)]
  · rw [degreeCentrality, if_pos (by rw [hn]; decide)]
    norm_num

theorem dayOf_dayStartMin (t : ℤ) : dayOf (dayStartMin t) = dayOf t := by
  unfold dayStartMin dayOf minutesPerDay
  rw [mul_comm, Int.mul_fdiv_cancel_left _ (by norm_num)]

theorem dayStartMin_idem (t : ℤ) : dayStartMin (dayStartMin t) = dayStartMin t := by
  have h := dayOf_dayStartMin t
  unfold dayStartMin at h ⊢
  rw [h]

/-- Claim C7 (corrected): `response` and `network` (the latter on tables
whose item columns already hold sets, i.e. the normalized git and mail
schemas) leave the caller's table unchanged; but `activity`, `teamsize`
with the reporter role, and `centrality` overwrite the timestamp column in
place — with the day truncation, the shifted week bucket, and the month
truncation respectively — while preserving the id, actor, item-set and
discussion columns of every row; the `activity` truncation is idempotent. -/
theorem operations_frame_effects (rows : List Event) :
    responseEffect rows = rows ∧
      networkEffect rows = rows ∧
      (activityEffect rows).map (fun e => (e.eid, e.author, e.items, e.discussion)) =
        rows.map (fun e => (e.eid, e.author, e.items, e.discussion)) ∧
      (activityEffect rows).map (fun e => e.date) = rows.map (fun e => dayStartMin e.date) ∧
      (teamsizeReporterEffect rows).map (fun e => (e.eid, e.author, e.items, e.discussion)) =
        rows.map (fun e => (e.eid, e.author, e.items, e.discussion)) ∧
      (teamsizeReporterEffect rows).map (fun e => e.date) = rows.map (fun e => tsDate e.date) ∧
      (centralityEffect rows).map (fun e => (e.eid, e.author, e.items, e.discussion)) =
        rows.map (fun e => (e.eid, e.author, e.items, e.discussion)) ∧
      (centralityEffect rows).map (fun e => e.date) = rows.map (fun e => monthStartMin e.date) ∧
      activityEffect (activityEffect rows) = activityEffect rows := by
  refine ⟨rfl, rfl, ?_, ?_, ?_, ?_, ?_, ?_, ?_⟩
  · simp [activityEffect]
  · simp [activityEffect]
  · simp [teamsizeReporterEffect]
  · simp [teamsizeReporterEffect]
  · simp [centralityEffect]
  · simp [centralityEffect]
  · simp only [activityEffect, List.map_map]
    apply List.map_congr_left
    intro e _
    simp [dayStartMin_idem]

/-- Counterexample to claim C7 as stated: `activity` truncates the
timestamp column of the caller's table in place (line 124), so an event
timestamped 100 minutes past midnight has its timestamp changed to
midnight by the call. -/
theorem activity_mutates_input :
    activityEffect [⟨1, 5, 100, ∅, []⟩] ≠ [⟨1, 5, 100, ∅, []⟩] ∧
      activityEffect [⟨1, 5, 100, ∅, []⟩] = [⟨1, 5, 0, ∅, []⟩] := by
  constructor
  · decide
  · decide

theorem getRates_walk (target : RIssue) (L : List RIssue) :
    ∀ (k : ℕ) (hk : k < L.length), (∀ (j : ℕ) (hj : j < k),
        ¬ (L.get ⟨j, lt_trans hj hk⟩).rid = target.rid) →
      (L.get ⟨k, hk⟩).rid = target.rid → ∀ idx ans : ℤ,
      getRates target L idx ans =
        some (idx + (k : ℤ) - (ans + ((L.take (k + 1)).countP (answeredBefore target) : ℤ)) + 1) := by
  induction L with
  | nil => intro k hk; simp at hk
  | cons i rest ih =>
    intro k hk hpre htk idx ans
    cases k with
    | zero =>
      have hid : i.rid = target.rid := htk
      rw [getRates, if_pos (by simpa using hid)]
      simp only [List.take_succ_cons, List.take_zero, List.countP_cons, List.countP_nil]
      by_cases hp : answeredBefore target i
      · simp only [hp, Option.some.injEq, if_true]
        push_cast
        omega
      · simp only [hp, Option.some.injEq, if_false]
        push_cast
        omega
    | succ j =>
      have hid : ¬ i.rid = target.rid := by
        have := hpre 0 (Nat.succ_pos j)
        simpa using this
      rw [getRates, if_neg hid]
      have hk' : j < rest.length := by simpa using Nat.lt_of_succ_lt_succ hk
      have hpre' : ∀ (j' : ℕ) (hj' : j' < j),
          ¬ (rest.get ⟨j', lt_trans hj' hk'⟩).rid = target.rid := by
        intro j' hj'
        have := hpre (j' + 1) (Nat.succ_lt_succ hj')
        simpa using this
      have htk' : (rest.get ⟨j, hk'⟩).rid = target.rid := by simpa using htk
      rw [ih j hk' hpre' htk' (idx + 1) (if answeredBefore target i then ans + 1 else ans)]
      simp only [List.take_succ_cons, List.countP_cons]
      by_cases hp : answeredBefore target i
      · simp only [hp, Option.some.injEq, if_true]
        push_cast
        omega
      · simp only [hp, Option.some.injEq, if_false]
        push_cast
        omega

/-- Claim C8: after sorting issues by creation time ascending with a dense
0-based index, the `unanswered_to_this_date` value of the issue at index k
equals `k − answered + 1`, where `answered` counts the issues encountered
while walking the sorted list up to and including this issue whose
first-response timestamp exists and is at most this issue's creation time
(ids are assumed unique, the spec's data-model invariant that `get_rates`
relies on to identify the row). -/
theorem response_unanswered_count_formula (issues : List Event)
    (hnd : (issues.map (fun e => e.eid)).Nodup) (k : ℕ)
    (hk : k < (responsePrep issues).length) :
    getRates ((responsePrep issues).get ⟨k, hk⟩) (responsePrep issues) 0 0 =
      some ((k : ℤ) -
        (((responsePrep issues).take (k + 1)).countP
          (answeredBefore ((responsePrep issues).get ⟨k, hk⟩)) : ℤ) + 1) := by
  have hmap : (responsePrep issues).map (fun i => i.rid) =
      (List.insertionSort (fun e f : Event => e.date ≤ f.date) issues).map (fun e => e.eid) := by
    rw [responsePrep, List.map_map]
    rfl
  have hnd2 : ((responsePrep issues).map (fun i => i.rid)).Nodup := by
    rw [hmap]
    exact (((List.perm_insertionSort (fun e f : Event => e.date ≤ f.date) issues).map
      (fun e => e.eid)).nodup_iff).mpr hnd
  have hpre : ∀ (j : ℕ) (hj : j < k),
      ¬ ((responsePrep issues).get ⟨j, lt_trans hj hk⟩).rid =
        ((responsePrep issues).get ⟨k, hk⟩).rid := by
    intro j hj heq
    have hjL : j < ((responsePrep issues).map (fun i => i.rid)).length := by
      rw [List.length_map]; exact lt_trans hj hk
    have hkL : k < ((responsePrep issues).map (fun i => i.rid)).length := by
      rw [List.length_map]; exact hk
    have hget : ((responsePrep issues).map (fun i => i.rid)).get ⟨j, hjL⟩ =
        ((responsePrep issues).map (fun i => i.rid)).get ⟨k, hkL⟩ := by
      rw [List.get_map, List.get_map]
      exact heq
    have := (List.Nodup.get_inj_iff hnd2).mp hget
    simp at this
    omega
  have hw := getRates_walk ((responsePrep issues).get ⟨k, hk⟩) (responsePrep issues)
    k hk hpre rfl 0 0
  rw [hw]
  congr 1
  omega

/-- Witness for C8 on three concrete issues: the third issue (sorted index
2) was created after two responses already existed, giving 2 − 2 + 1 = 1. -/
theorem response_unanswered_count_formula_witness :
    getRates ((responsePrep [⟨1, 5, 100, ∅, [⟨6, 200, true⟩]⟩, ⟨2, 6, 50, ∅, []⟩,
        ⟨3, 7, 300, ∅, [⟨5, 250, true⟩]⟩]).get ⟨2, by decide⟩)
      (responsePrep [⟨1, 5, 100, ∅, [⟨6, 200, true⟩]⟩, ⟨2, 6, 50, ∅, []⟩,
        ⟨3, 7, 300, ∅, [⟨5, 250, true⟩]⟩]) 0 0 =
      some (((2 : ℕ) : ℤ) -
        (((responsePrep [⟨1, 5, 100, ∅, [⟨6, 200, true⟩]⟩, ⟨2, 6, 50, ∅, []⟩,
          ⟨3, 7, 300, ∅, [⟨5, 250, true⟩]⟩]).take (2 + 1)).countP
          (answeredBefore ((responsePrep [⟨1, 5, 100, ∅, [⟨6, 200, true⟩]⟩, ⟨2, 6, 50, ∅, []⟩,
            ⟨3, 7, 300, ∅, [⟨5, 250, true⟩]⟩]).get ⟨2, by decide⟩)) : ℤ) + 1) :=
  response_unanswered_count_formula
    [⟨1, 5, 100, ∅, [⟨6, 200, true⟩]⟩, ⟨2, 6, 50, ∅, []⟩, ⟨3, 7, 300, ∅, [⟨5, 250, true⟩]⟩]
    (by decide) 2 (by decide)

theorem mem_sortedIntKeys (l : List ℤ) (a : ℤ) : a ∈ sortedIntKeys l ↔ a ∈ l := by
  unfold sortedIntKeys
  rw [(List.perm_insertionSort _ _).mem_iff, List.mem_dedup]

theorem sortedIntKeys_nodup (l : List ℤ) : (sortedIntKeys l).Nodup :=
  ((List.perm_insertionSort _ _).nodup_iff).mpr (List.nodup_dedup l)

theorem sum_map_add_distrib {κ : Type} (ks : List κ) (f g : κ → ℕ) :
    (ks.map (fun k => f k + g k)).sum = (ks.map f).sum + (ks.map g).sum := by
  induction ks with
  | nil => rfl
  | cons k ks ih => simp only [List.map_cons, List.sum_cons, ih]; omega

theorem sum_map_ite_eq_zero {κ : Type} [DecidableEq κ] (ks : List κ) (b : κ) (h : ¬ b ∈ ks) :
    (ks.map (fun k => if b = k then 1 else 0)).sum = 0 := by
  induction ks with
  | nil => rfl
  | cons k ks ih =>
    have hbk : ¬ b = k := fun he => h (he ▸ List.mem_cons_self k ks)
    have hbs : ¬ b ∈ ks := fun he => h (List.mem_cons_of_mem k he)
    simp only [List.map_cons, List.sum_cons, if_neg hbk, ih hbs]

theorem sum_map_ite_eq_one {κ : Type} [DecidableEq κ] (ks : List κ) (b : κ)
    (hnd : ks.Nodup) (h : b ∈ ks) :
    (ks.map (fun k => if b = k then 1 else 0)).sum = 1 := by
  induction ks with
  | nil => cases h
  | cons k ks ih =>
    rcases List.mem_cons.mp h with rfl | hmem
    · have hbs : ¬ b ∈ ks := (List.nodup_cons.mp hnd).1
      simp only [List.map_cons, List.sum_cons, if_pos rfl, sum_map_ite_eq_zero ks b hbs]
      simp
    · have hbk : ¬ b = k := by
        intro he
        exact (List.nodup_cons.mp hnd).1 (he ▸ hmem)
      simp only [List.map_cons, List.sum_cons, if_neg hbk, ih (List.nodup_cons.mp hnd).2 hmem]

theorem sum_countP_partition {α κ : Type} [DecidableEq κ] (l : List α) (key : α → κ)
    (ks : List κ) (hnd : ks.Nodup) (hcov : ∀ x ∈ l, key x ∈ ks) :
    (ks.map (fun k => l.countP (fun x => decide (key x = k)))).sum = l.length := by
  induction l with
  | nil => simp
  | cons x xs ih =>
    have hcov' : ∀ y ∈ xs, key y ∈ ks := fun y hy => hcov y (List.mem_cons_of_mem x hy)
    have hx : key x ∈ ks := hcov x (List.mem_cons_self x xs)
    simp only [List.countP_cons]
    have hsplit :
        (ks.map (fun k => xs.countP (fun y => decide (key y = k)) +
          if decide (key x = k) = true then 1 else 0)).sum =
        (ks.map (fun k => xs.countP (fun y => decide (key y = k)))).sum +
          (ks.map (fun k => if decide (key x = k) = true then 1 else 0)).sum :=
      sum_map_add_distrib ks _ _
    rw [hsplit, ih hcov']
    have hone : (ks.map (fun k => if decide (key x = k) = true then 1 else 0)).sum = 1 := by
      have : (ks.map (fun k => if decide (key x = k) = true then 1 else 0)) =
          (ks.map (fun k => if key x = k then 1 else 0)) := by
        apply List.map_congr_left
        intro k _
        by_cases hkk : key x = k
        · simp [hkk]
        · simp [hkk]
      rw [this, sum_map_ite_eq_one ks (key x) hnd hx]
    rw [hone, List.length_cons]

theorem mem_weekSeq (first last w : ℤ) (h7 : (w - first) % 7 = 0) (h1 : first ≤ w)
    (h2 : w ≤ last) : w ∈ weekSeq first last := by
  have hi : (w - first).toNat / 7 ∈ List.range ((last - first).toNat / 7 + 1) :=
    List.mem_range.mpr (by omega)
  have hmem := List.mem_map_of_mem (fun i : ℕ => first + 7 * (i : ℤ)) hi
  have heq : first + 7 * (((w - first).toNat / 7 : ℕ) : ℤ) = w := by omega
  unfold weekSeq
  rw [← heq]
  exact hmem

theorem weekSeq_nodup (first last : ℤ) : (weekSeq first last).Nodup := by
  unfold weekSeq
  refine List.Nodup.map ?_ (List.nodup_range _)
  intro i j hij
  simp only at hij
  omega

theorem foldl_min_le_init (l : List ℤ) (a : ℤ) : l.foldl min a ≤ a := by
  induction l generalizing a with
  | nil => exact le_refl a
  | cons x xs ih => exact le_trans (ih (min a x)) (min_le_left a x)

theorem foldl_min_le_mem (l : List ℤ) (a : ℤ) (x : ℤ) (hx : x ∈ l) : l.foldl min a ≤ x := by
  induction l generalizing a with
  | nil => cases hx
  | cons y ys ih =>
    rcases List.mem_cons.mp hx with rfl | hmem
    · exact le_trans (foldl_min_le_init ys (min a x)) (min_le_right a x)
    · exact ih (min a y) hmem

theorem le_foldl_max_init (l : List ℤ) (a : ℤ) : a ≤ l.foldl max a := by
  induction l generalizing a with
  | nil => exact le_refl a
  | cons x xs ih => exact le_trans (le_max_left a x) (ih (max a x))

theorem le_foldl_max_mem (l : List ℤ) (a : ℤ) (x : ℤ) (hx : x ∈ l) : x ≤ l.foldl max a := by
  induction l generalizing a with
  | nil => cases hx
  | cons y ys ih =>
    rcases List.mem_cons.mp hx with rfl | hmem
    · exact le_trans (le_max_right a x) (le_foldl_max_init ys (max a x))
    · exact ih (max a y) hmem

theorem weekSunday_mono (d e : ℤ) (h : d ≤ e) : weekSunday d ≤ weekSunday e := by
  unfold weekSunday
  omega

theorem weekSunday_emod (d e : ℤ) : (weekSunday d - weekSunday e) % 7 = 0 := by
  unfold weekSunday
  omega

theorem weeklyCount_eq_countP (data : List (ℕ × ℤ)) (a : ℕ) (w : ℤ) :
    weeklyCount data a w =
      data.countP (fun p => decide (p.1 = a ∧ weekSunday p.2 = w)) := by
  have hnd : ((daysOfAuthor data a).filter (fun d => weekSunday d = w)).Nodup :=
    (sortedIntKeys_nodup _).filter _
  have hcov : ∀ x ∈ data.filter (fun p => decide (p.1 = a ∧ weekSunday p.2 = w)),
      x.2 ∈ (daysOfAuthor data a).filter (fun d => weekSunday d = w) := by
    intro x hx
    have hx' := List.mem_filter.mp hx
    have hxa : x.1 = a := (of_decide_eq_true hx'.2).1
    have hxw : weekSunday x.2 = w := (of_decide_eq_true hx'.2).2
    refine List.mem_filter.mpr ⟨?_, by simpa using hxw⟩
    rw [daysOfAuthor, mem_sortedIntKeys]
    exact List.mem_map.mpr ⟨x, List.mem_filter.mpr ⟨hx'.1, by simpa using hxa⟩, rfl⟩
  have hpart := sum_countP_partition
    (data.filter (fun p => decide (p.1 = a ∧ weekSunday p.2 = w)))
    (fun p => p.2) ((daysOfAuthor data a).filter (fun d => weekSunday d = w)) hnd hcov
  have hlen : (data.filter (fun p => decide (p.1 = a ∧ weekSunday p.2 = w))).length =
      data.countP (fun p => decide (p.1 = a ∧ weekSunday p.2 = w)) :=
    (List.countP_eq_length_filter _ _).symm
  rw [hlen] at hpart
  rw [← hpart]
  unfold weeklyCount
  apply congrArg
  apply List.map_congr_left
  intro d hd
  have hdw : weekSunday d = w := by
    have := (List.mem_filter.mp hd).2
    simpa using this
  rw [List.countP_filter]
  unfold dailyCount
  apply List.countP_congr
  intro p _
  by_cases h1 : p.1 = a
  · by_cases h2 : p.2 = d
    · simp [h1, h2, hdw]
    · by_cases h3 : weekSunday p.2 = w
      · simp [h1, h2, h3]
      · simp [h1, h2, h3]
  · simp [h1]

theorem author_weekly_sum (data : List (ℕ × ℤ)) (a : ℕ) :
    ((authorWeeks data a).map (fun w => weeklyCount data a w)).sum =
      data.countP (fun p => decide (p.1 = a)) := by
  rcases hdays : daysOfAuthor data a with _ | ⟨d, ds⟩
  · have hempty : data.countP (fun p => decide (p.1 = a)) = 0 := by
      rw [List.countP_eq_length_filter]
      by_contra hne
      have : data.filter (fun p => decide (p.1 = a)) ≠ [] := by
        intro he
        rw [he] at hne
        exact hne rfl
      obtain ⟨x, hx⟩ := List.exists_mem_of_ne_nil _ this
      have hxd : x.2 ∈ daysOfAuthor data a := by
        rw [daysOfAuthor, mem_sortedIntKeys]
        exact List.mem_map.mpr ⟨x, hx, rfl⟩
      rw [hdays] at hxd
      cases hxd
    rw [authorWeeks, hdays, hempty]
    rfl
  · rw [authorWeeks, hdays]
    have hnd := weekSeq_nodup (weekSunday ((d :: ds).foldl min d))
      (weekSunday ((d :: ds).foldl max d))
    have hcov : ∀ x ∈ data.filter (fun p => decide (p.1 = a)),
        weekSunday x.2 ∈ weekSeq (weekSunday ((d :: ds).foldl min d))
          (weekSunday ((d :: ds).foldl max d)) := by
      intro x hx
      have hx' := List.mem_filter.mp hx
      have hxd : x.2 ∈ (d :: ds) := by
        rw [← hdays, daysOfAuthor, mem_sortedIntKeys]
        exact List.mem_map.mpr ⟨x, List.mem_filter.mpr ⟨hx'.1, hx'.2⟩, rfl⟩
      exact mem_weekSeq _ _ _ (weekSunday_emod _ _)
        (weekSunday_mono _ _ (foldl_min_le_mem _ _ _ hxd))
        (weekSunday_mono _ _ (le_foldl_max_mem _ _ _ hxd))
    have hpart := sum_countP_partition (data.filter (fun p => decide (p.1 = a)))
      (fun p => weekSunday p.2)
      (weekSeq (weekSunday ((d :: ds).foldl min d)) (weekSunday ((d :: ds).foldl max d)))
      hnd hcov
    have hlen : (data.filter (fun p => decide (p.1 = a))).length =
        data.countP (fun p => decide (p.1 = a)) :=
      (List.countP_eq_length_filter _ _).symm
    rw [hlen] at hpart
    rw [← hpart]
    apply congrArg
    apply List.map_congr_left
    intro w _
    rw [weeklyCount_eq_countP, List.countP_filter]
    apply List.countP_congr
    intro p _
    by_cases h1 : p.1 = a
    · by_cases h2 : weekSunday p.2 = w
      · simp [h1, h2]
      · simp [h1, h2]
    · simp [h1]

theorem sum_filterMap_counts (a : ℕ) (ws : List ℤ) (f : ℤ → ℕ) :
    ((ws.filterMap (fun w =>
        if 0 < f w then some (ActRow.mk a ((w - 3) * minutesPerDay) (f w)) else none)).map
      (fun r => r.count)).sum = (ws.map f).sum := by
  induction ws with
  | nil => rfl
  | cons w ws ih =>
    by_cases h : 0 < f w
    · simp only [List.filterMap_cons, if_pos h, List.map_cons, List.sum_cons, ih]
    · simp only [List.filterMap_cons, if_neg h, ih, List.map_cons, List.sum_cons]
      omega

theorem sum_map_count_flatten (L : List (List ActRow)) :
    ((L.flatten).map (fun r => r.count)).sum =
      (L.map (fun l => (l.map (fun r => r.count)).sum)).sum := by
  induction L with
  | nil => rfl
  | cons l ls ih =>
    simp only [List.flatten_cons, List.map_append, List.sum_append, ih, List.map_cons,
      List.sum_cons]

theorem weeklyActivity_sum_eq_length (data : List (ℕ × ℤ)) :
    ((weeklyActivityRows data).map (fun r => r.count)).sum = data.length := by
  unfold weeklyActivityRows
  rw [sum_map_count_flatten, List.map_map]
  have hcongr : ∀ a ∈ sortedKeys (data.map (fun p => p.1)),
      ((fun l : List ActRow => (l.map (fun r => r.count)).sum) ∘ fun a => authorRows data a) a =
        data.countP (fun p => decide (p.1 = a)) := by
    intro a _
    have h1 := sum_filterMap_counts a (authorWeeks data a) (fun w => weeklyCount data a w)
    simp only [Function.comp, authorRows]
    rw [h1]
    exact author_weekly_sum data a
  rw [List.map_congr_left hcongr]
  exact sum_countP_partition data (fun p => p.1) (sortedKeys (data.map (fun p => p.1)))
    (sortedKeys_nodup _)
    (fun x hx => (mem_sortedKeys _ _).mpr (List.mem_map.mpr ⟨x, hx, rfl⟩))

/-- Claim C2: the sum of the `count` column over all rows of the weekly
activity output equals the number of source entries matching the selected
roles — reporter rows, comment rows, or their sum when both roles are
requested: nothing is lost or double-counted by the daily bucketing, the
weekly resampling, the dropping of zero-count weeks, or the
reporter+commenter concatenation. -/
theorem activity_count_sum (setList : List ℕ → List ℕ) (rows : List Event)
    (rep comm : Bool) (res : ActivityRes)
    (h : activity setList rows rep comm = some res) :
    (res.dataframe.map (fun r => r.count)).sum =
      (if rep then rows.length else 0) +
        (if comm then (rows.map (fun e => e.discussion.length)).sum else 0) := by
  unfold activity at h
  by_cases h1 : rep = false ∧ comm = false
  · rw [if_pos h1] at h
    cases h
  · rw [if_neg h1] at h
    by_cases h2 : comm = true ∧ rows.any (fun e => e.discussion.isEmpty) = true
    · rw [if_pos h2] at h
      cases h
    · rw [if_neg h2] at h
      have hdf : res.dataframe = weeklyActivityRows (activityData rows rep comm) := by
        cases h
        rfl
      rw [hdf, weeklyActivity_sum_eq_length]
      unfold activityData
      rw [List.length_append]
      congr 1
      · cases rep
        · rfl
        · simp [reporterData]
      · cases comm
        · rfl
        · simp only [if_true]
          rw [commentRows, List.length_flatten, List.map_map]
          apply congrArg
          apply List.map_congr_left
          intro e _
          simp [List.length_map]

/-- Witness for C2 on one issue with one comment, both roles requested:
1 reporter entry + 1 comment = total weekly count 2. -/
theorem activity_count_sum_witness :
    ((( ⟨[⟨5, 0, 1⟩, ⟨6, 0, 1⟩], [5, 6]⟩ : ActivityRes)).dataframe.map (fun r => r.count)).sum =
      (if true then ([⟨1, 5, 0, ∅, [⟨6, 1440, false⟩]⟩] : List Event).length else 0) +
        (if true then (([⟨1, 5, 0, ∅, [⟨6, 1440, false⟩]⟩] : List Event).map
          (fun e => e.discussion.length)).sum else 0) :=
  activity_count_sum List.dedup [⟨1, 5, 0, ∅, [⟨6, 1440, false⟩]⟩] true true
    ⟨[⟨5, 0, 1⟩, ⟨6, 0, 1⟩], [5, 6]⟩ (by decide)

theorem mem_map_snd_sortDesc (l : List (ℤ × ℕ)) (a : ℕ) :
    a ∈ (List.insertionSort
        (fun p q : ℤ × ℕ => q.1 < p.1 ∨ (p.1 = q.1 ∧ q.2 ≤ p.2)) l).map (fun p => p.2) ↔
      a ∈ l.map (fun p => p.2) :=
  ((List.perm_insertionSort _ l).map (fun p => p.2)).mem_iff

theorem mem_reporterAuthorsSorted (rows : List Event) (a : ℕ) :
    a ∈ reporterAuthorsSorted rows ↔ a ∈ (reporterData rows).map (fun p => p.1) := by
  unfold reporterAuthorsSorted
  rw [mem_map_snd_sortDesc, List.map_map]
  have : ((fun p : ℤ × ℕ => p.2) ∘ fun a =>
      (match ((reporterData rows).filter (fun p => p.1 = a)).map (fun p => p.2) with
       | [] => 0
       | d :: ds => (d :: ds).foldl min d, a)) = id := by
    funext x
    rfl
  rw [this, List.map_id]
  exact mem_sortedKeys _ _

theorem mem_commenterAuthorsSorted (rows : List Event) (a : ℕ) :
    a ∈ commenterAuthorsSorted rows ↔ a ∈ (commentRows rows).map (fun p => p.1) := by
  unfold commenterAuthorsSorted
  rw [mem_map_snd_sortDesc, List.map_map]
  constructor
  · intro h
    obtain ⟨p, hp, hpa⟩ := List.mem_map.mp h
    exact List.mem_map.mpr ⟨p, hp, hpa⟩
  · intro h
    obtain ⟨p, hp, hpa⟩ := List.mem_map.mp h
    exact List.mem_map.mpr ⟨p, hp, hpa⟩

theorem mem_authorsPreSet (rows : List Event) (rep comm : Bool) (a : ℕ) :
    a ∈ authorsPreSet rows rep comm ↔ a ∈ (activityData rows rep comm).map (fun p => p.1) := by
  unfold authorsPreSet activityData
  rw [List.mem_append, List.map_append, List.mem_append]
  constructor
  · rintro (h | h)
    · left
      cases rep
      · cases h
      · exact (mem_reporterAuthorsSorted rows a).mp h
    · right
      cases comm
      · cases h
      · exact (mem_commenterAuthorsSorted rows a).mp h
  · rintro (h | h)
    · left
      cases rep
      · cases h
      · exact (mem_reporterAuthorsSorted rows a).mpr h
    · right
      cases comm
      · cases h
      · exact (mem_commenterAuthorsSorted rows a).mpr h

/-- Claim C1 (corrected): the author list returned by `activity` contains
each distinct actor of the selected roles exactly once — it is a
permutation of the deduplicated concatenation of the per-role sorted
catalogues, and its members are exactly the actors occurring in the
selected roles' rows.  Its order, however, is Python's hash-table set
iteration order (`list(set(authors))`, line 153), which is not the
(earliest-date, name)-descending order the rows were sorted into and is not
stable across runs under hash randomization. -/
theorem activity_authors_distinct_actors (setList : List ℕ → List ℕ)
    (hset : ∀ xs : List ℕ, (setList xs).Perm xs.dedup) (rows : List Event)
    (rep comm : Bool) (res : ActivityRes)
    (h : activity setList rows rep comm = some res) :
    res.authors.Perm ((authorsPreSet rows rep comm).dedup) ∧ res.authors.Nodup ∧
      (∀ a, a ∈ res.authors ↔ a ∈ (activityData rows rep comm).map (fun p => p.1)) := by
  have hres : res.authors = setList (authorsPreSet rows rep comm) := by
    unfold activity at h
    by_cases h1 : rep = false ∧ comm = false
    · rw [if_pos h1] at h
      cases h
    · rw [if_neg h1] at h
      by_cases h2 : comm = true ∧ rows.any (fun e => e.discussion.isEmpty) = true
      · rw [if_pos h2] at h
        cases h
      · rw [if_neg h2] at h
        cases h
        rfl
  have hperm : res.authors.Perm ((authorsPreSet rows rep comm).dedup) := by
    rw [hres]
    exact hset _
  refine ⟨hperm, hperm.nodup_iff.mpr (List.nodup_dedup _), fun a => ?_⟩
  rw [hperm.mem_iff, List.mem_dedup]
  exact mem_authorsPreSet rows rep comm a

/-- Witness for C1 (corrected) with the dedup-order set enumeration on a
two-author table. -/
theorem activity_authors_distinct_actors_witness :
    ([5, 7] : List ℕ).Perm ((authorsPreSet [⟨1, 7, 0, ∅, []⟩, ⟨2, 5, 14400, ∅, []⟩]
        true false).dedup) ∧
      ([5, 7] : List ℕ).Nodup ∧
      (∀ a, a ∈ ([5, 7] : List ℕ) ↔
        a ∈ (activityData [⟨1, 7, 0, ∅, []⟩, ⟨2, 5, 14400, ∅, []⟩] true false).map
          (fun p => p.1)) := by
  have h := activity_authors_distinct_actors List.dedup (fun xs => List.Perm.refl _)
    [⟨1, 7, 0, ∅, []⟩, ⟨2, 5, 14400, ∅, []⟩] true false
    ⟨[⟨5, 10080, 1⟩, ⟨7, 0, 1⟩], [5, 7]⟩ (by decide)
  exact h

/-- Counterexample to claim C1 as stated: on a two-author table the rows
are sorted into the catalogue [5, 7] (actor 5 has the later earliest date),
which is the spec's claimed order; but `list(set(...))` re-enumerates the
set in hash order, and the reversed enumeration — equally valid for a
Python set, which guarantees only that each distinct element appears
exactly once — makes `activity` return [7, 5] instead.  The returned order
is therefore not determined by the sort, and differs from the claimed
(earliest-date, name)-descending order. -/
theorem activity_author_order_not_guaranteed :
    ((fun xs : List ℕ => xs.dedup.reverse)
        (authorsPreSet [⟨1, 7, 0, ∅, []⟩, ⟨2, 5, 14400, ∅, []⟩] true false)).Perm
      ((authorsPreSet [⟨1, 7, 0, ∅, []⟩, ⟨2, 5, 14400, ∅, []⟩] true false).dedup) ∧
      specAuthorOrder [⟨1, 7, 0, ∅, []⟩, ⟨2, 5, 14400, ∅, []⟩] true false = [5, 7] ∧
      (activity (fun xs => xs.dedup.reverse)
          [⟨1, 7, 0, ∅, []⟩, ⟨2, 5, 14400, ∅, []⟩] true false).map (fun r => r.authors) =
        some [7, 5] ∧
      some ([7, 5] : List ℕ) ≠
        some (specAuthorOrder [⟨1, 7, 0, ∅, []⟩, ⟨2, 5, 14400, ∅, []⟩] true false) := by
  refine ⟨by decide, by decide, by decide, by decide⟩

theorem dayOf_mul (d : ℤ) : dayOf (d * minutesPerDay) = d := by
  unfold dayOf minutesPerDay
  rw [mul_comm]
  exact Int.mul_fdiv_cancel_left _ (by norm_num)

theorem tsDate_week (w : ℤ) (h : w % 7 = 3) :
    tsDate ((w - 3) * minutesPerDay) = (w - 9) * minutesPerDay := by
  unfold tsDate weekMonday
  rw [dayOf_mul]
  have : (w - 3 - 4) % 7 = 3 := by omega
  rw [this]
  congr 1
  omega

theorem mem_weekSeq_emod (f l w : ℤ) (h : w ∈ weekSeq f l) : (w - f) % 7 = 0 := by
  unfold weekSeq at h
  obtain ⟨i, _, hi⟩ := List.mem_map.mp h
  omega

theorem weekSunday_mod3 (d : ℤ) : weekSunday d % 7 = 3 := by
  unfold weekSunday
  omega

theorem mem_authorWeeks_mod3 (data : List (ℕ × ℤ)) (a : ℕ) (w : ℤ)
    (h : w ∈ authorWeeks data a) : w % 7 = 3 := by
  unfold authorWeeks at h
  rcases hdays : daysOfAuthor data a with _ | ⟨d, ds⟩
  · rw [hdays] at h
    cases h
  · rw [hdays] at h
    have h7 := mem_weekSeq_emod _ _ _ h
    have h3 := weekSunday_mod3 ((d :: ds).foldl min d)
    omega

theorem authorWeeks_nodup (data : List (ℕ × ℤ)) (a : ℕ) : (authorWeeks data a).Nodup := by
  unfold authorWeeks
  rcases daysOfAuthor data a with _ | ⟨d, ds⟩
  · exact List.nodup_nil
  · exact weekSeq_nodup _ _

theorem mem_authorRows (data : List (ℕ × ℤ)) (a : ℕ) (x : ActRow)
    (h : x ∈ authorRows data a) :
    x.author = a ∧ ∃ w ∈ authorWeeks data a, x.date = (w - 3) * minutesPerDay := by
  unfold authorRows at h
  obtain ⟨w, hw, hx⟩ := List.mem_filterMap.mp h
  by_cases hpos : 0 < weeklyCount data a w
  · rw [if_pos hpos] at hx
    cases hx
    exact ⟨rfl, w, hw, rfl⟩
  · rw [if_neg hpos] at hx
    cases hx

theorem filterMap_rows_dates_nodup (l : List ℤ) (hl : l.Nodup) (g : ℤ → Option ActRow)
    (hg : ∀ w r, g w = some r → r.date = (w - 3) * minutesPerDay) :
    ((l.filterMap g).map (fun r => r.date)).Nodup := by
  induction l with
  | nil => exact List.nodup_nil
  | cons w ws ih =>
    have hnd := List.nodup_cons.mp hl
    rcases hgw : g w with _ | r
    · rw [List.filterMap_cons_none hgw]
      exact ih hnd.2
    · rw [List.filterMap_cons_some hgw]
      rw [List.map_cons, List.nodup_cons]
      refine ⟨?_, ih hnd.2⟩
      intro hmem
      obtain ⟨r2, hr2, hdate⟩ := List.mem_map.mp hmem
      obtain ⟨w2, hw2, hg2⟩ := List.mem_filterMap.mp hr2
      have h1 := hg w r hgw
      have h2 := hg w2 r2 hg2
      have : w = w2 := by
        have := hdate ▸ h2
        rw [h1] at this
        unfold minutesPerDay at this
        omega
      exact hnd.1 (this ▸ hw2)

theorem filter_le_one_of_dates_nodup (l : List ActRow)
    (hnd : (l.map (fun r => r.date)).Nodup) (p : ActRow → Bool)
    (hp : ∀ x ∈ l, ∀ y ∈ l, p x = true → p y = true → x.date = y.date) :
    (l.filter p).length ≤ 1 := by
  induction l with
  | nil => simp
  | cons x xs ih =>
    rw [List.map_cons, List.nodup_cons] at hnd
    by_cases hx : p x = true
    · rw [List.filter_cons_of_pos hx]
      have hempty : xs.filter p = [] := by
        rw [List.filter_eq_nil_iff]
        intro y hy hpy
        have hdate := hp x (List.mem_cons_self x xs) y (List.mem_cons_of_mem x hy) hx hpy
        exact hnd.1 (List.mem_map.mpr ⟨y, hy, hdate.symm⟩)
      rw [hempty]
      simp
    · rw [List.filter_cons_of_neg (by simpa using hx)]
      exact ih hnd.2 (fun y hy z hz => hp y (List.mem_cons_of_mem x hy) z
        (List.mem_cons_of_mem x hz))

theorem flatten_sublist_of_singletons (ks : List ℕ) (g : ℕ → List ℕ)
    (hg : ∀ k ∈ ks, g k = [] ∨ g k = [k]) : ((ks.map g).flatten).Sublist ks := by
  induction ks with
  | nil => exact List.Sublist.refl []
  | cons k ks ih =>
    rw [List.map_cons, List.flatten_cons]
    have ihs := ih (fun k2 hk2 => hg k2 (List.mem_cons_of_mem k hk2))
    rcases hg k (List.mem_cons_self k ks) with hk | hk
    · rw [hk, List.nil_append]
      exact ihs.cons k
    · rw [hk, List.singleton_append]
      exact ihs.cons₂ k

theorem bucket_authors_nodup (data : List (ℕ × ℤ)) (b : ℤ) :
    (((weeklyActivityRows data).filter (fun x => decide (tsDate x.date = b))).map
      (fun x => x.author)).Nodup := by
  unfold weeklyActivityRows
  rw [List.filter_flatten, List.map_flatten, List.map_map, List.map_map]
  have hsingle : ∀ a ∈ sortedKeys (data.map (fun p => p.1)),
      ((List.map (fun x : ActRow => x.author) ∘ List.filter (fun x => decide (tsDate x.date = b))
        ∘ fun a => authorRows data a) a = [] ∨
       (List.map (fun x : ActRow => x.author) ∘ List.filter (fun x => decide (tsDate x.date = b))
        ∘ fun a => authorRows data a) a = [a]) := by
    intro a _
    simp only [Function.comp]
    have hdnd : ((authorRows data a).map (fun r => r.date)).Nodup := by
      unfold authorRows
      refine filterMap_rows_dates_nodup _ (authorWeeks_nodup data a) _ ?_
      intro w r hw
      by_cases hpos : 0 < weeklyCount data a w
      · rw [if_pos hpos] at hw
        cases hw
        rfl
      · rw [if_neg hpos] at hw
        cases hw
    have hle : ((authorRows data a).filter (fun x => decide (tsDate x.date = b))).length ≤ 1 := by
      refine filter_le_one_of_dates_nodup _ hdnd _ ?_
      intro x hx y hy hpx hpy
      obtain ⟨_, w1, hw1, hd1⟩ := mem_authorRows data a x hx
      obtain ⟨_, w2, hw2, hd2⟩ := mem_authorRows data a y hy
      have hb1 : tsDate x.date = b := of_decide_eq_true hpx
      have hb2 : tsDate y.date = b := of_decide_eq_true hpy
      rw [hd1, tsDate_week w1 (mem_authorWeeks_mod3 data a w1 hw1)] at hb1
      rw [hd2, tsDate_week w2 (mem_authorWeeks_mod3 data a w2 hw2)] at hb2
      have hw : w1 = w2 := by
        unfold minutesPerDay at hb1 hb2
        omega
      rw [hd1, hd2, hw]
    rcases hga : ((authorRows data a).filter (fun x => decide (tsDate x.date = b))) with _ | ⟨x, rest⟩
    · left
      rw [hga]
      rfl
    · right
      have hrest : rest = [] := by
        have := hga ▸ hle
        cases rest
        · rfl
        · simp at this
      subst hrest
      rw [hga]
      have hxa : x.author = a := by
        have hxmem : x ∈ (authorRows data a).filter (fun x => decide (tsDate x.date = b)) := by
          rw [hga]
          exact List.mem_singleton.mpr rfl
        exact (mem_authorRows data a x (List.mem_of_mem_filter hxmem)).1
      rw [List.map_singleton, hxa]
  have hsub := flatten_sublist_of_singletons (sortedKeys (data.map (fun p => p.1)))
    (List.map (fun x : ActRow => x.author) ∘ List.filter (fun x => decide (tsDate x.date = b))
      ∘ fun a => authorRows data a) hsingle
  exact (sortedKeys_nodup _).sublist hsub

/-- Claim C5 (corrected): feeding the weekly activity output of a
single-role activity run into the team-size operation yields, for each
bucket, an `entry_count` equal to the number of weekly activity rows
falling in that bucket — which, the rows of one week having pairwise
distinct actors, is the number of distinct actors with nonzero activity
that week — and an `author_count` equal to the same number.  It is not the
week's `count` values summed across actors: `entry_count` counts rows, and
one activity row can carry a count larger than 1 (see the
counterexample). -/
theorem teamsize_entry_count_on_activity (rows : List Event) (res : ActivityRes)
    (h : activity List.dedup rows true false = some res) :
    ∀ r ∈ teamsizeReporter (res.dataframe.map actRowEvent),
      r.entry_count =
        (res.dataframe.filter (fun x => decide (tsDate x.date = r.date))).length ∧
      ((res.dataframe.filter (fun x => decide (tsDate x.date = r.date))).map
        (fun x => x.author)).Nodup ∧
      r.author_count = r.entry_count := by
  have hdf : res.dataframe = weeklyActivityRows (activityData rows true false) := by
    unfold activity at h
    rw [if_neg (by simp)] at h
    rw [if_neg (by simp)] at h
    cases h
    rfl
  intro r hr
  unfold teamsizeReporter at hr
  obtain ⟨b, _, hrb⟩ := List.mem_map.mp hr
  have hdate : r.date = b := by rw [← hrb]
  have hentry : r.entry_count =
      (res.dataframe.map actRowEvent).countP (fun e => decide (tsDate e.date = b)) := by
    rw [← hrb]
  have hauthor : r.author_count =
      ((((res.dataframe.map actRowEvent).filter (fun e => decide (tsDate e.date = b))).map
        (fun e => e.author)).dedup).length := by
    rw [← hrb]
  have hcountP : (res.dataframe.map actRowEvent).countP (fun e => decide (tsDate e.date = b)) =
      res.dataframe.countP (fun x => decide (tsDate x.date = b)) := by
    rw [List.countP_map]
    rfl
  have hfilter : ((res.dataframe.map actRowEvent).filter (fun e => decide (tsDate e.date = b))) =
      (res.dataframe.filter (fun x => decide (tsDate x.date = b))).map actRowEvent := by
    rw [List.filter_map]
    rfl
  have hnodup : ((res.dataframe.filter (fun x => decide (tsDate x.date = b))).map
      (fun x => x.author)).Nodup := by
    rw [hdf]
    exact bucket_authors_nodup (activityData rows true false) b
  have hlen : r.entry_count =
      (res.dataframe.filter (fun x => decide (tsDate x.date = b))).length := by
    rw [hentry, hcountP, List.countP_eq_length_filter]
  refine ⟨by rw [hdate, hlen], by rw [hdate]; exact hnodup, ?_⟩
  rw [hauthor, hfilter, List.map_map]
  have hmapa : ((res.dataframe.filter (fun x => decide (tsDate x.date = b))).map
      ((fun e : Event => e.author) ∘ actRowEvent)) =
      ((res.dataframe.filter (fun x => decide (tsDate x.date = b))).map (fun x => x.author)) := rfl
  rw [hmapa, List.Nodup.dedup hnodup, List.length_map, hlen]

/-- Witness for C5 (corrected) at a concrete single-actor two-entry table:
the single activity row (actor 7, count 2) lands in bucket −8640 with
`entry_count = 1` — the number of rows, i.e. of distinct actors. -/
theorem teamsize_entry_count_on_activity_witness :
    (⟨-8640, 1, 1⟩ : TsRow).entry_count =
      (([⟨7, 0, 2⟩] : List ActRow).filter
        (fun x => decide (tsDate x.date = (⟨-8640, 1, 1⟩ : TsRow).date))).length ∧
      ((([⟨7, 0, 2⟩] : List ActRow).filter
        (fun x => decide (tsDate x.date = (⟨-8640, 1, 1⟩ : TsRow).date))).map
        (fun x => x.author)).Nodup ∧
      (⟨-8640, 1, 1⟩ : TsRow).author_count = (⟨-8640, 1, 1⟩ : TsRow).entry_count :=
  teamsize_entry_count_on_activity [⟨1, 7, 0, ∅, []⟩, ⟨2, 7, 1440, ∅, []⟩]
    ⟨[⟨7, 0, 2⟩], [7]⟩ (by decide) ⟨-8640, 1, 1⟩ (by decide)

/-- Counterexample to claim C5 as stated: two same-week entries by one
actor give a weekly activity row with count 2; feeding that output to
`teamsize` yields `entry_count = 1` for the bucket (the row count), not
the summed count 2. -/
theorem teamsize_entry_count_not_summed :
    activity List.dedup [⟨1, 7, 0, ∅, []⟩, ⟨2, 7, 1440, ∅, []⟩] true false =
      some ⟨[⟨7, 0, 2⟩], [7]⟩ ∧
      teamsizeReporter (([⟨7, 0, 2⟩] : List ActRow).map actRowEvent) = [⟨-8640, 1, 1⟩] ∧
      (([⟨7, 0, 2⟩] : List ActRow).map (fun r => r.count)).sum = 2 ∧
      (1 : ℕ) ≠ 2 := by
  refine ⟨by decide, by decide, by decide, by decide⟩
